import Mathlib

/-!
Verification of the permissionless-voting tally guest.

The guest program reads an ABI-encoded `VoteWitness`, checks that every
vote carries the witness's proposal identifier, counts yes/no choices,
folds a per-vote commitment into a sequential Keccak-256 hash chain, and
commits the ABI-encoded `VotePublicOutput` to the journal.

Bytes are modelled as `List Nat` (each entry a byte value), ABI encoding
of the fixed tuple shapes used by the guest is implemented concretely,
and the Keccak-256 hash is an explicit parameter `H : Bytes → Nat`
(its output a 256-bit word), since the hash is an external library
primitive; collision-freeness assumptions are stated where a theorem
needs them, mirroring the spec's collision-resistance assumption.
-/

namespace PermissionlessVoting

/-- A byte string: each entry is a byte value below 256. -/
abbrev Bytes := List Nat

/-- Big-endian serialization of a natural number into `w` bytes
(the low byte ends up last). -/
def toBytesBE : Nat → Nat → Bytes
  | 0, _ => []
  | w + 1, n => toBytesBE w (n / 256) ++ [n % 256]

/-- One 32-byte ABI word holding a value reduced modulo `2 ^ 256`. -/
def u256Word (n : Nat) : Bytes := toBytesBE 32 (n % 2 ^ 256)

/-- A single ballot (`struct Vote` in `vote-types/src/lib.rs`):
`uint256 proposalId`, `address voter`, `bool choice`.
Machine integers are modelled as `Nat`; decoded values satisfy
`proposalId < 2 ^ 256` and `voter < 2 ^ 160`. -/
structure Vote where
  proposalId : Nat
  voter : Nat
  choice : Bool
  deriving DecidableEq, Repr

/-- The private input (`struct VoteWitness`): a declared proposal id and
an ordered list of votes. -/
structure VoteWitness where
  proposalId : Nat
  votes : List Vote
  deriving DecidableEq, Repr

/-- The public result (`struct VotePublicOutput`): proposal id, the chained
commitments digest (a `bytes32`, modelled as a `Nat` below `2 ^ 256`), and
the `uint32` yes/no counts. -/
structure VotePublicOutput where
  proposalId : Nat
  commitmentsDigest : Nat
  yes : Nat
  no : Nat
  deriving DecidableEq, Repr

/-- ABI encoding of a single `uint256` value, as in
`(proposalId).abi_encode()` seeding the digest chain. -/
def abiEncodeUint256 (n : Nat) : Bytes := u256Word n

/-- ABI encoding of the tuple `(address voter, bool choice, uint256 proposalId)`
used for the per-vote commitment: three 32-byte words, the address
left-padded and the bool as 0 or 1. -/
def abiEncodeVoteTuple (voter : Nat) (choice : Bool) (proposalId : Nat) : Bytes :=
  u256Word voter ++ u256Word (if choice then 1 else 0) ++ u256Word proposalId

/-- ABI encoding of the tuple `(bytes32 digest, bytes32 commitment)`
used for each digest-chain update: two 32-byte words. -/
def abiEncodePair (digest commitment : Nat) : Bytes :=
  u256Word digest ++ u256Word commitment

/-- ABI encoding of `VotePublicOutput`: `uint256`, `bytes32`, and the two
`uint32` counts each padded to a 32-byte word. -/
def abiEncodeOutput (o : VotePublicOutput) : Bytes :=
  u256Word o.proposalId ++ u256Word o.commitmentsDigest ++
    toBytesBE 32 (o.yes % 2 ^ 32) ++ toBytesBE 32 (o.no % 2 ^ 32)

/-- The hash function parameter standing for Keccak-256 over byte strings. -/
abbrev HashF := Bytes → Nat

/-- The error taxonomy of the guest (spec section 7): input decode failure,
proposal-id mismatch, count overflow. -/
inductive GuestError where
  | inputDecode
  | proposalMismatch
  | countOverflow
  deriving DecidableEq, Repr

/-- Per-vote commitment, `keccak256((v.voter, v.choice, v.proposalId).abi_encode())`
(voting-tally `main.rs` line 29). -/
def voteCommitment (H : HashF) (v : Vote) : Nat :=
  H (abiEncodeVoteTuple v.voter v.choice v.proposalId)

/-- One digest-chain update,
`digest = keccak256((digest, vote_commitment).abi_encode())`
(voting-tally `main.rs` line 30). -/
def digestStep (H : HashF) (digest : Nat) (v : Vote) : Nat :=
  H (abiEncodePair digest (voteCommitment H v))

/-- The vote loop of the guest `main` (voting-tally `main.rs` lines 20-31):
for each vote, assert its proposal id equals the witness's, increment the
chosen counter, and fold the vote commitment into the digest.
Modelled from the spec: the incremented `u32` counter must stay
representable, otherwise the engine fails with `CountOverflowError`
(spec section 7); the build profile fixing Rust's overflow behaviour is
not part of the sources. -/
def tallyLoop (H : HashF) (pid : Nat) :
    Nat → Nat → Nat → List Vote → Except GuestError (Nat × Nat × Nat)
  | yes, no, digest, [] => .ok (yes, no, digest)
  | yes, no, digest, v :: vs =>
    if v.proposalId = pid then
      if (if v.choice then yes + 1 else yes) < 2 ^ 32 ∧
          (if v.choice then no else no + 1) < 2 ^ 32 then
        tallyLoop H pid (if v.choice then yes + 1 else yes)
          (if v.choice then no else no + 1) (digestStep H digest v) vs
      else .error .countOverflow
    else .error .proposalMismatch

/-- The tally computation of the guest `main` after input decoding
(voting-tally `main.rs` lines 17-38): counters start at zero, the digest
chain is seeded with `keccak256(proposalId.abi_encode())`, and on success
the structured public output is produced. -/
def tallyVotes (H : HashF) (w : VoteWitness) : Except GuestError VotePublicOutput :=
  match tallyLoop H w.proposalId 0 0 (H (abiEncodeUint256 w.proposalId)) w.votes with
  | .error e => .error e
  | .ok (yes, no, digest) =>
    .ok { proposalId := w.proposalId, commitmentsDigest := digest, yes := yes, no := no }

/-- The whole guest run (voting-tally `main.rs` lines 11-39): the argument
is the result of ABI-decoding the input bytes (`none` models a decode
failure of the external decoder, whose `.unwrap()` aborts the run); the
second component is the journal, the list of byte strings committed via
`env::commit_slice`, which happens exactly once and only after the loop
finishes. -/
def guestRun (H : HashF) (decoded : Option VoteWitness) :
    Except GuestError Unit × List Bytes :=
  match decoded with
  | none => (.error .inputDecode, [])
  | some w =>
    match tallyVotes H w with
    | .error e => (.error e, [])
    | .ok out => (.ok (), [abiEncodeOutput out])

/-- Spec-side formula (spec section 4.2): the commitments digest is the
left fold of `digest = Hash(Encode(digest, commitment))` over the votes
in witness order, starting from the chain root `Hash(Encode(proposal_id))`. -/
def specChainDigest (H : HashF) (pid : Nat) (votes : List Vote) : Nat :=
  votes.foldl (digestStep H) (H (abiEncodeUint256 pid))

/-- The byte strings fed to the hash during a chain run starting from
digest value `d`: for each vote, the commitment preimage and the
chain-update preimage. -/
def chainInputsAux (H : HashF) : Nat → List Vote → List Bytes
  | _, [] => []
  | d, v :: vs =>
    abiEncodeVoteTuple v.voter v.choice v.proposalId ::
      abiEncodePair d (voteCommitment H v) ::
      chainInputsAux H (digestStep H d v) vs

/-- All byte strings fed to the hash while chaining `votes` for proposal
`pid`: the root preimage followed by the per-vote preimages. -/
def chainInputs (H : HashF) (pid : Nat) (votes : List Vote) : List Bytes :=
  abiEncodeUint256 pid :: chainInputsAux H (H (abiEncodeUint256 pid)) votes

/-- `H` has no collision among the byte strings of `S`. -/
abbrev CollFreeOn (H : HashF) (S : List Bytes) : Prop :=
  ∀ x ∈ S, ∀ y ∈ S, H x = H y → x = y

/-- Every hash of a byte string of `S` fits in 256 bits. -/
abbrev RangeOn (H : HashF) (S : List Bytes) : Prop :=
  ∀ x ∈ S, H x < 2 ^ 256

/-- All field values of the votes fit their machine-integer widths
(the bound actually needed is one ABI word). -/
abbrev VotesWF (l : List Vote) : Prop :=
  ∀ v ∈ l, v.voter < 2 ^ 256 ∧ v.proposalId < 2 ^ 256

/-- Reorders a vote list by a list of positions; out-of-range positions
are dropped. -/
def permuteVotes (idx : List Nat) (l : List Vote) : List Vote :=
  idx.filterMap (fun i => l[i]?)

/-- A concrete stand-in hash with 256-bit outputs, used to evaluate the
model on concrete inputs. -/
def modelHash : HashF :=
  fun bs => bs.foldl (fun a b => a * 257 + b + 1) 0 % 2 ^ 256

/-- The public output of a successful tally, with a dummy fallback. -/
def tallyOutputD (H : HashF) (w : VoteWitness) : VotePublicOutput :=
  ((tallyVotes H w).toOption).getD ⟨0, 0, 0, 0⟩

instance {ε α : Type} [DecidableEq ε] [DecidableEq α] : DecidableEq (Except ε α)
  | .error e1, .error e2 =>
    if h : e1 = e2 then isTrue (congrArg Except.error h)
    else isFalse (fun hc => h (Except.error.inj hc))
  | .error _, .ok _ => isFalse (fun hc => Except.noConfusion hc)
  | .ok _, .error _ => isFalse (fun hc => Except.noConfusion hc)
  | .ok a1, .ok a2 =>
    if h : a1 = a2 then isTrue (congrArg Except.ok h)
    else isFalse (fun hc => h (Except.ok.inj hc))

/-! ### Injectivity of the byte-level encoders -/

theorem toBytesBE_length (w n : Nat) : (toBytesBE w n).length = w := by
  induction w generalizing n with
  | zero => rfl
  | succ w ih => simp [toBytesBE, ih]

theorem toBytesBE_inj {w n m : Nat} (hn : n < 256 ^ w) (hm : m < 256 ^ w)
    (h : toBytesBE w n = toBytesBE w m) : n = m := by
  induction w generalizing n m with
  | zero =>
    simp only [pow_zero, Nat.lt_one_iff] at hn hm
    omega
  | succ w ih =>
    simp only [toBytesBE] at h
    obtain ⟨h1, h2⟩ := List.append_inj h (by simp [toBytesBE_length])
    rw [pow_succ] at hn hm
    have hdiv : n / 256 = m / 256 :=
      ih (Nat.div_lt_iff_lt_mul (by norm_num) |>.mpr hn)
        (Nat.div_lt_iff_lt_mul (by norm_num) |>.mpr hm) h1
    have hmod : n % 256 = m % 256 := by simpa using h2
    omega

theorem pow256_32 : (256 : Nat) ^ 32 = 2 ^ 256 := by norm_num

theorem u256Word_length (n : Nat) : (u256Word n).length = 32 := by
  simp [u256Word, toBytesBE_length]

theorem u256Word_inj {n m : Nat} (hn : n < 2 ^ 256) (hm : m < 2 ^ 256)
    (h : u256Word n = u256Word m) : n = m := by
  unfold u256Word at h
  rw [Nat.mod_eq_of_lt hn, Nat.mod_eq_of_lt hm] at h
  exact toBytesBE_inj (pow256_32 ▸ hn) (pow256_32 ▸ hm) h

theorem abiEncodeUint256_length (n : Nat) : (abiEncodeUint256 n).length = 32 := by
  simp [abiEncodeUint256, u256Word_length]

theorem abiEncodePair_length (d c : Nat) : (abiEncodePair d c).length = 64 := by
  simp [abiEncodePair, u256Word_length]

theorem abiEncodeVoteTuple_length (voter : Nat) (choice : Bool) (pid : Nat) :
    (abiEncodeVoteTuple voter choice pid).length = 96 := by
  simp [abiEncodeVoteTuple, u256Word_length]

theorem abiEncodeUint256_ne_pair (p d c : Nat) : abiEncodeUint256 p ≠ abiEncodePair d c := by
  intro h
  have := congrArg List.length h
  rw [abiEncodeUint256_length, abiEncodePair_length] at this
  omega

theorem abiEncodePair_inj {d1 c1 d2 c2 : Nat}
    (hd1 : d1 < 2 ^ 256) (hc1 : c1 < 2 ^ 256) (hd2 : d2 < 2 ^ 256) (hc2 : c2 < 2 ^ 256)
    (h : abiEncodePair d1 c1 = abiEncodePair d2 c2) : d1 = d2 ∧ c1 = c2 := by
  unfold abiEncodePair at h
  obtain ⟨h1, h2⟩ := List.append_inj h (by simp [u256Word_length])
  exact ⟨u256Word_inj hd1 hd2 h1, u256Word_inj hc1 hc2 h2⟩

theorem abiEncodeVoteTuple_inj {v1 v2 : Vote}
    (hv1 : v1.voter < 2 ^ 256) (hp1 : v1.proposalId < 2 ^ 256)
    (hv2 : v2.voter < 2 ^ 256) (hp2 : v2.proposalId < 2 ^ 256)
    (h : abiEncodeVoteTuple v1.voter v1.choice v1.proposalId =
      abiEncodeVoteTuple v2.voter v2.choice v2.proposalId) : v1 = v2 := by
  unfold abiEncodeVoteTuple at h
  obtain ⟨h12, h3⟩ := List.append_inj h (by simp [u256Word_length])
  obtain ⟨h1, h2⟩ := List.append_inj h12 (by simp [u256Word_length])
  have hvoter : v1.voter = v2.voter := u256Word_inj hv1 hv2 h1
  have hpid : v1.proposalId = v2.proposalId := u256Word_inj hp1 hp2 h3
  have hchoiceWord : (if v1.choice then 1 else 0 : Nat) = (if v2.choice then 1 else 0) :=
    u256Word_inj (by split <;> norm_num) (by split <;> norm_num) h2
  have hchoice : v1.choice = v2.choice := by
    cases hc1 : v1.choice <;> cases hc2 : v2.choice <;> simp_all
  cases v1; cases v2
  simp_all

/-! ### Characterization of the tally loop -/

theorem tallyLoop_ok {H : HashF} {pid : Nat} :
    ∀ {vs : List Vote} {yes no digest y n d : Nat},
      tallyLoop H pid yes no digest vs = .ok (y, n, d) →
      y = yes + vs.countP (fun v => v.choice) ∧
      n = no + vs.countP (fun v => !v.choice) ∧
      d = vs.foldl (digestStep H) digest ∧
      (∀ v ∈ vs, v.proposalId = pid) ∧
      (yes < 2 ^ 32 → y < 2 ^ 32) ∧ (no < 2 ^ 32 → n < 2 ^ 32) := by
  intro vs
  induction vs with
  | nil =>
    intro yes no digest y n d h
    simp only [tallyLoop, Except.ok.injEq, Prod.mk.injEq] at h
    obtain ⟨hy, hn, hd⟩ := h
    subst hy hn hd
    simp
  | cons v vs ih =>
    intro yes no digest y n d h
    rw [tallyLoop] at h
    by_cases hpid : v.proposalId = pid
    · rw [if_pos hpid] at h
      by_cases hov : (if v.choice then yes + 1 else yes) < 2 ^ 32 ∧
          (if v.choice then no else no + 1) < 2 ^ 32
      · rw [if_pos hov] at h
        obtain ⟨hy, hn, hd, hmem, hby, hbn⟩ := ih h
        refine ⟨?_, ?_, ?_, ?_, ?_, ?_⟩
        · rw [hy, List.countP_cons]
          cases hc : v.choice
          · simp [hc]
          · simp [hc]
            omega
        · rw [hn, List.countP_cons]
          cases hc : v.choice
          · simp [hc]
            omega
          · simp [hc]
        · simpa using hd
        · intro u hu
          rcases List.mem_cons.mp hu with hu | hu
          · rw [hu]; exact hpid
          · exact hmem u hu
        · exact fun _ => hby hov.1
        · exact fun _ => hbn hov.2
      · rw [if_neg hov] at h; simp at h
    · rw [if_neg hpid] at h; simp at h

theorem tallyLoop_complete {H : HashF} {pid : Nat} :
    ∀ (vs : List Vote) (yes no digest : Nat),
      (∀ v ∈ vs, v.proposalId = pid) →
      yes + vs.countP (fun v => v.choice) < 2 ^ 32 →
      no + vs.countP (fun v => !v.choice) < 2 ^ 32 →
      tallyLoop H pid yes no digest vs =
        .ok (yes + vs.countP (fun v => v.choice),
          no + vs.countP (fun v => !v.choice),
          vs.foldl (digestStep H) digest) := by
  intro vs
  induction vs with
  | nil => intros; simp [tallyLoop]
  | cons v vs ih =>
    intro yes no digest hcons hy hn
    have hpid : v.proposalId = pid := hcons v (by simp)
    have htail : ∀ u ∈ vs, u.proposalId = pid := fun u hu => hcons u (List.mem_cons_of_mem v hu)
    rw [List.countP_cons] at hy
    rw [List.countP_cons] at hn
    rw [tallyLoop, if_pos hpid]
    cases hc : v.choice
    · simp only [hc] at hy hn ⊢
      simp at hy hn ⊢
      rw [if_pos (by omega)]
      rw [ih yes (no + 1) (digestStep H digest v) htail (by omega) (by omega)]
      simp only [Except.ok.injEq, Prod.mk.injEq, List.foldl_cons, List.countP_cons, hc]
      refine ⟨by simp, by simp; omega, trivial⟩
    · simp only [hc] at hy hn ⊢
      simp only [if_true] at hy hn ⊢
      rw [if_pos (by omega)]
      rw [ih (yes + 1) no (digestStep H digest v) htail (by omega) (by omega)]
      simp only [Except.ok.injEq, Prod.mk.injEq, List.foldl_cons, List.countP_cons, hc]
      refine ⟨by simp; omega, by simp, trivial⟩

theorem countP_choice_add_countP_not (l : List Vote) :
    l.countP (fun v => v.choice) + l.countP (fun v => !v.choice) = l.length := by
  induction l with
  | nil => rfl
  | cons v vs ih => cases hc : v.choice <;> simp [List.countP_cons, hc] <;> omega

/-- Soundness of a successful tally: the output fields are the proposal id,
the exact yes/no counts over all votes, and the spec-side chained digest;
moreover every vote was consistent and both counts fit in 32 bits. -/
theorem tallyVotes_ok {H : HashF} {w : VoteWitness} {out : VotePublicOutput}
    (h : tallyVotes H w = .ok out) :
    out.proposalId = w.proposalId ∧
    out.yes = w.votes.countP (fun v => v.choice) ∧
    out.no = w.votes.countP (fun v => !v.choice) ∧
    out.commitmentsDigest = specChainDigest H w.proposalId w.votes ∧
    (∀ v ∈ w.votes, v.proposalId = w.proposalId) ∧
    out.yes < 2 ^ 32 ∧ out.no < 2 ^ 32 := by
  unfold tallyVotes at h
  cases hloop : tallyLoop H w.proposalId 0 0 (H (abiEncodeUint256 w.proposalId)) w.votes with
  | error e => rw [hloop] at h; simp at h
  | ok t =>
    obtain ⟨y, n, d⟩ := t
    rw [hloop] at h
    simp only [Except.ok.injEq] at h
    obtain ⟨hy, hn, hd, hmem, hby, hbn⟩ := tallyLoop_ok hloop
    subst h
    refine ⟨rfl, by simpa using hy, by simpa using hn, by simpa [specChainDigest] using hd,
      hmem, ?_, ?_⟩
    · simpa [hy] using hby (by norm_num)
    · simpa [hn] using hbn (by norm_num)

/-- Completeness: a witness whose votes are all consistent and whose
counts fit in 32 bits tallies successfully, to the canonical output. -/
theorem tallyVotes_complete (H : HashF) (p : Nat) (l : List Vote)
    (hcons : ∀ v ∈ l, v.proposalId = p)
    (hy : l.countP (fun v => v.choice) < 2 ^ 32)
    (hn : l.countP (fun v => !v.choice) < 2 ^ 32) :
    tallyVotes H ⟨p, l⟩ = .ok ⟨p, specChainDigest H p l,
      l.countP (fun v => v.choice), l.countP (fun v => !v.choice)⟩ := by
  unfold tallyVotes
  rw [tallyLoop_complete l 0 0 _ hcons (by omega) (by omega)]
  simp [specChainDigest]

/-! ### The digest chain and its injectivity under collision-freeness -/

theorem specChainDigest_nil (H : HashF) (p : Nat) :
    specChainDigest H p [] = H (abiEncodeUint256 p) := rfl

theorem specChainDigest_snoc (H : HashF) (p : Nat) (l : List Vote) (v : Vote) :
    specChainDigest H p (l ++ [v]) = digestStep H (specChainDigest H p l) v := by
  simp [specChainDigest, List.foldl_append]

theorem chainInputsAux_snoc (H : HashF) (l : List Vote) (v : Vote) :
    ∀ d : Nat, chainInputsAux H d (l ++ [v]) =
      chainInputsAux H d l ++
        [abiEncodeVoteTuple v.voter v.choice v.proposalId,
          abiEncodePair (l.foldl (digestStep H) d) (voteCommitment H v)] := by
  induction l with
  | nil => intro d; simp [chainInputsAux]
  | cons u us ih => intro d; simp [chainInputsAux, ih, List.foldl_cons]

theorem chainInputs_snoc (H : HashF) (p : Nat) (l : List Vote) (v : Vote) :
    chainInputs H p (l ++ [v]) =
      chainInputs H p l ++
        [abiEncodeVoteTuple v.voter v.choice v.proposalId,
          abiEncodePair (specChainDigest H p l) (voteCommitment H v)] := by
  simp [chainInputs, chainInputsAux_snoc, specChainDigest]

theorem specChainDigest_is_hash (H : HashF) (p : Nat) (l : List Vote) :
    ∃ x ∈ chainInputs H p l, specChainDigest H p l = H x := by
  rcases List.eq_nil_or_concat l with rfl | ⟨a, v, rfl⟩
  · exact ⟨abiEncodeUint256 p, by simp [chainInputs], rfl⟩
  · rw [List.concat_eq_append]
    refine ⟨abiEncodePair (specChainDigest H p a) (voteCommitment H v), ?_, ?_⟩
    · rw [chainInputs_snoc]
      simp
    · rw [specChainDigest_snoc]
      rfl

theorem chainInputs_sub_snoc (H : HashF) (p : Nat) (l : List Vote) (v : Vote) :
    chainInputs H p l ⊆ chainInputs H p (l ++ [v]) := by
  rw [chainInputs_snoc]
  exact List.subset_append_left _ _

theorem collFreeOn_mono {H : HashF} {S T : List Bytes} (h : CollFreeOn H T) (hsub : S ⊆ T) :
    CollFreeOn H S :=
  fun x hx y hy => h x (hsub hx) y (hsub hy)

theorem rangeOn_mono {H : HashF} {S T : List Bytes} (h : RangeOn H T) (hsub : S ⊆ T) :
    RangeOn H S :=
  fun x hx => h x (hsub hx)

/-- The sequential hash chain is injective on vote lists as long as the
hash has no collision among the byte strings it was fed and its outputs
are 256-bit words: two vote lists with the same chained digest are equal. -/
theorem specChainDigest_inj (H : HashF) (p : Nat) :
    ∀ l1 l2 : List Vote,
      CollFreeOn H (chainInputs H p l1 ++ chainInputs H p l2) →
      RangeOn H (chainInputs H p l1 ++ chainInputs H p l2) →
      VotesWF l1 → VotesWF l2 →
      specChainDigest H p l1 = specChainDigest H p l2 → l1 = l2 := by
  intro l1
  induction l1 using List.reverseRecOn with
  | nil =>
    intro l2 hcf hrange hwf1 hwf2 heq
    rcases List.eq_nil_or_concat l2 with rfl | ⟨b, w, rfl⟩
    · rfl
    · exfalso
      rw [List.concat_eq_append] at hcf heq
      rw [specChainDigest_nil, specChainDigest_snoc] at heq
      have hx : abiEncodeUint256 p ∈
          chainInputs H p [] ++ chainInputs H p (b ++ [w]) := by
        simp [chainInputs]
      have hy : abiEncodePair (specChainDigest H p b) (voteCommitment H w) ∈
          chainInputs H p [] ++ chainInputs H p (b ++ [w]) := by
        rw [chainInputs_snoc]
        simp
      exact abiEncodeUint256_ne_pair _ _ _ (hcf _ hx _ hy heq)
  | append_singleton a v ih =>
    intro l2 hcf hrange hwf1 hwf2 heq
    rcases List.eq_nil_or_concat l2 with rfl | ⟨b, w, rfl⟩
    · exfalso
      rw [specChainDigest_snoc, specChainDigest_nil] at heq
      have hx : abiEncodeUint256 p ∈
          chainInputs H p (a ++ [v]) ++ chainInputs H p [] := by
        simp [chainInputs]
      have hy : abiEncodePair (specChainDigest H p a) (voteCommitment H v) ∈
          chainInputs H p (a ++ [v]) ++ chainInputs H p [] := by
        rw [chainInputs_snoc]
        simp
      exact abiEncodeUint256_ne_pair _ _ _ (hcf _ hx _ hy heq.symm)
    · rw [List.concat_eq_append] at hcf hrange hwf2 heq ⊢
      rw [specChainDigest_snoc, specChainDigest_snoc] at heq
      have hxa : abiEncodePair (specChainDigest H p a) (voteCommitment H v) ∈
          chainInputs H p (a ++ [v]) ++ chainInputs H p (b ++ [w]) := by
        rw [chainInputs_snoc]
        simp
      have hxb : abiEncodePair (specChainDigest H p b) (voteCommitment H w) ∈
          chainInputs H p (a ++ [v]) ++ chainInputs H p (b ++ [w]) := by
        rw [chainInputs_snoc H p b w]
        simp
      have hpair := hcf _ hxa _ hxb heq
      have htva : abiEncodeVoteTuple v.voter v.choice v.proposalId ∈
          chainInputs H p (a ++ [v]) ++ chainInputs H p (b ++ [w]) := by
        rw [chainInputs_snoc]
        simp
      have htwb : abiEncodeVoteTuple w.voter w.choice w.proposalId ∈
          chainInputs H p (a ++ [v]) ++ chainInputs H p (b ++ [w]) := by
        rw [chainInputs_snoc H p b w]
        simp
      have hda : specChainDigest H p a < 2 ^ 256 := by
        obtain ⟨x, hx, hxeq⟩ := specChainDigest_is_hash H p a
        rw [hxeq]
        exact hrange x (List.mem_append_left _ (chainInputs_sub_snoc H p a v hx))
      have hdb : specChainDigest H p b < 2 ^ 256 := by
        obtain ⟨x, hx, hxeq⟩ := specChainDigest_is_hash H p b
        rw [hxeq]
        exact hrange x (List.mem_append_right _ (chainInputs_sub_snoc H p b w hx))
      have hca : voteCommitment H v < 2 ^ 256 := hrange _ htva
      have hcb : voteCommitment H w < 2 ^ 256 := hrange _ htwb
      obtain ⟨hd, hc⟩ := abiEncodePair_inj hda hca hdb hcb hpair
      have htup := hcf _ htva _ htwb hc
      have hvwf := hwf1 v (by simp)
      have hwwf := hwf2 w (by simp)
      have hvw : v = w := abiEncodeVoteTuple_inj hvwf.1 hvwf.2 hwwf.1 hwwf.2 htup
      have hsub : chainInputs H p a ++ chainInputs H p b ⊆
          chainInputs H p (a ++ [v]) ++ chainInputs H p (b ++ [w]) := by
        intro x hx
        rw [List.mem_append] at hx ⊢
        rcases hx with hx | hx
        · exact Or.inl (chainInputs_sub_snoc H p a v hx)
        · exact Or.inr (chainInputs_sub_snoc H p b w hx)
      have hab : a = b :=
        ih b (collFreeOn_mono hcf hsub) (rangeOn_mono hrange hsub)
          (fun u hu => hwf1 u (by simp [hu])) (fun u hu => hwf2 u (by simp [hu])) hd
      rw [hvw, hab]

/-! ### A big-step execution relation for the guest loop -/

/-- Big-step semantics of the vote loop, one constructor per control path
of the source loop: empty list, proposal-id mismatch, count overflow, and
a successful step to the next vote. -/
inductive LoopExec (H : HashF) (pid : Nat) :
    Nat → Nat → Nat → List Vote → Except GuestError (Nat × Nat × Nat) → Prop
  | done (yes no digest : Nat) :
      LoopExec H pid yes no digest [] (.ok (yes, no, digest))
  | mismatch (yes no digest : Nat) (v : Vote) (vs : List Vote)
      (hv : v.proposalId ≠ pid) :
      LoopExec H pid yes no digest (v :: vs) (.error .proposalMismatch)
  | overflow (yes no digest : Nat) (v : Vote) (vs : List Vote)
      (hv : v.proposalId = pid)
      (hov : ¬((if v.choice then yes + 1 else yes) < 2 ^ 32 ∧
        (if v.choice then no else no + 1) < 2 ^ 32)) :
      LoopExec H pid yes no digest (v :: vs) (.error .countOverflow)
  | step (yes no digest : Nat) (v : Vote) (vs : List Vote)
      (r : Except GuestError (Nat × Nat × Nat))
      (hv : v.proposalId = pid)
      (hok : (if v.choice then yes + 1 else yes) < 2 ^ 32 ∧
        (if v.choice then no else no + 1) < 2 ^ 32)
      (htail : LoopExec H pid (if v.choice then yes + 1 else yes)
        (if v.choice then no else no + 1) (digestStep H digest v) vs r) :
      LoopExec H pid yes no digest (v :: vs) r

/-- Big-step semantics of the tally computation on a witness. -/
inductive TallyExec (H : HashF) (w : VoteWitness) :
    Except GuestError VotePublicOutput → Prop
  | ok (yes no digest : Nat)
      (h : LoopExec H w.proposalId 0 0 (H (abiEncodeUint256 w.proposalId)) w.votes
        (.ok (yes, no, digest))) :
      TallyExec H w (.ok ⟨w.proposalId, digest, yes, no⟩)
  | err (e : GuestError)
      (h : LoopExec H w.proposalId 0 0 (H (abiEncodeUint256 w.proposalId)) w.votes
        (.error e)) :
      TallyExec H w (.error e)

theorem LoopExec_det {H : HashF} {pid : Nat} {yes no digest : Nat} {vs : List Vote}
    {r1 r2 : Except GuestError (Nat × Nat × Nat)}
    (h1 : LoopExec H pid yes no digest vs r1) :
    LoopExec H pid yes no digest vs r2 → r1 = r2 := by
  induction h1 generalizing r2 with
  | done yes no digest =>
    intro h2
    cases h2 with
    | done => rfl
  | mismatch yes no digest v vs hv =>
    intro h2
    cases h2 with
    | mismatch => rfl
    | overflow =>
      rename_i hv2 hov
      exact absurd hv2 hv
    | step =>
      rename_i hv2 hok htail
      exact absurd hv2 hv
  | overflow yes no digest v vs hv hov =>
    intro h2
    cases h2 with
    | mismatch =>
      rename_i hv2
      exact absurd hv hv2
    | overflow => rfl
    | step =>
      rename_i hv2 hok htail
      exact absurd hok hov
  | step yes no digest v vs r hv hok htail ih =>
    intro h2
    cases h2 with
    | mismatch =>
      rename_i hv2
      exact absurd hv hv2
    | overflow =>
      rename_i hv2 hov
      exact absurd hok hov
    | step =>
      rename_i htail2
      exact ih htail2

theorem LoopExec_of_run {H : HashF} {pid : Nat} :
    ∀ {vs : List Vote} {yes no digest : Nat} {r : Except GuestError (Nat × Nat × Nat)},
      tallyLoop H pid yes no digest vs = r → LoopExec H pid yes no digest vs r := by
  intro vs
  induction vs with
  | nil =>
    intro yes no digest r h
    rw [tallyLoop] at h
    rw [← h]
    exact .done yes no digest
  | cons v vs ih =>
    intro yes no digest r h
    rw [tallyLoop] at h
    by_cases hpid : v.proposalId = pid
    · rw [if_pos hpid] at h
      by_cases hov : (if v.choice then yes + 1 else yes) < 2 ^ 32 ∧
          (if v.choice then no else no + 1) < 2 ^ 32
      · rw [if_pos hov] at h
        exact .step _ _ _ _ _ _ hpid hov (ih h)
      · rw [if_neg hov] at h
        rw [← h]
        exact .overflow _ _ _ _ _ hpid hov
    · rw [if_neg hpid] at h
      rw [← h]
      exact .mismatch _ _ _ _ _ hpid

/-- The functional tally realizes the big-step relation. -/
theorem TallyExec_run (H : HashF) (w : VoteWitness) : TallyExec H w (tallyVotes H w) := by
  unfold tallyVotes
  cases hloop : tallyLoop H w.proposalId 0 0 (H (abiEncodeUint256 w.proposalId)) w.votes with
  | error e => exact .err e (LoopExec_of_run hloop)
  | ok t =>
    obtain ⟨y, n, d⟩ := t
    exact .ok y n d (LoopExec_of_run hloop)

/-- Success characterization: the tally succeeds exactly on consistent
witnesses whose counts fit in 32 bits. -/
theorem tallyVotes_isOk_iff {H : HashF} {w : VoteWitness} :
    (∃ out, tallyVotes H w = .ok out) ↔
    ((∀ v ∈ w.votes, v.proposalId = w.proposalId) ∧
      w.votes.countP (fun v => v.choice) < 2 ^ 32 ∧
      w.votes.countP (fun v => !v.choice) < 2 ^ 32) := by
  constructor
  · rintro ⟨out, h⟩
    obtain ⟨-, hy, hn, -, hmem, hby, hbn⟩ := tallyVotes_ok h
    exact ⟨hmem, by omega, by omega⟩
  · rintro ⟨hc, hy, hn⟩
    exact ⟨_, tallyVotes_complete H w.proposalId w.votes hc hy hn⟩

/-- Reordering the votes never changes the yes/no counts of the public
output (and it preserves success/failure of the tally). -/
theorem tallyVotes_perm_counts {H : HashF} {p : Nat} {l1 l2 : List Vote}
    (hperm : l1.Perm l2) :
    (tallyVotes H ⟨p, l1⟩).toOption.map VotePublicOutput.yes =
      (tallyVotes H ⟨p, l2⟩).toOption.map VotePublicOutput.yes ∧
    (tallyVotes H ⟨p, l1⟩).toOption.map VotePublicOutput.no =
      (tallyVotes H ⟨p, l2⟩).toOption.map VotePublicOutput.no := by
  have hcy := hperm.countP_eq (fun v => v.choice)
  have hcn := hperm.countP_eq (fun v => !v.choice)
  by_cases hok : (∀ v ∈ l1, v.proposalId = p) ∧
      l1.countP (fun v => v.choice) < 2 ^ 32 ∧ l1.countP (fun v => !v.choice) < 2 ^ 32
  · obtain ⟨hc, hy, hn⟩ := hok
    have hc2 : ∀ v ∈ l2, v.proposalId = p := fun v hv => hc v (hperm.mem_iff.mpr hv)
    rw [tallyVotes_complete H p l1 hc hy hn,
      tallyVotes_complete H p l2 hc2 (by omega) (by omega), hcy, hcn]
    exact ⟨rfl, rfl⟩
  · have hnok1 : ∀ out, tallyVotes H ⟨p, l1⟩ ≠ .ok out := by
      intro out h
      obtain ⟨-, hy, hn, -, hmem, hby, hbn⟩ := tallyVotes_ok h
      dsimp only at hy hn hmem
      exact hok ⟨hmem, by omega, by omega⟩
    have hnok2 : ∀ out, tallyVotes H ⟨p, l2⟩ ≠ .ok out := by
      intro out h
      obtain ⟨-, hy, hn, -, hmem, hby, hbn⟩ := tallyVotes_ok h
      dsimp only at hy hn hmem
      have hcy2 := hperm.countP_eq (fun v => v.choice)
      have hcn2 := hperm.countP_eq (fun v => !v.choice)
      exact hok ⟨fun v hv => hmem v (hperm.mem_iff.mp hv), by omega, by omega⟩
    cases hres1 : tallyVotes H ⟨p, l1⟩ with
    | ok out => exact absurd hres1 (hnok1 out)
    | error e1 =>
      cases hres2 : tallyVotes H ⟨p, l2⟩ with
      | ok out => exact absurd hres2 (hnok2 out)
      | error e2 => exact ⟨rfl, rfl⟩

/-- Two consistent vote lists for the same proposal that agree pointwise
on voter and choice are equal. -/
theorem votes_eq_of_pointwise :
    ∀ (l1 l2 : List Vote) (p : Nat),
      (∀ v ∈ l1, v.proposalId = p) → (∀ v ∈ l2, v.proposalId = p) →
      l1.map (fun v => (v.voter, v.choice)) = l2.map (fun v => (v.voter, v.choice)) →
      l1 = l2 := by
  intro l1
  induction l1 with
  | nil =>
    intro l2 p h1 h2 hmap
    cases l2 with
    | nil => rfl
    | cons u us => simp at hmap
  | cons v vs ih =>
    intro l2 p h1 h2 hmap
    cases l2 with
    | nil => simp at hmap
    | cons u us =>
      simp only [List.map_cons, List.cons.injEq, Prod.mk.injEq] at hmap
      obtain ⟨⟨hvoter, hchoice⟩, htail⟩ := hmap
      have hp1 : v.proposalId = p := h1 v (by simp)
      have hp2 : u.proposalId = p := h2 u (by simp)
      have hv : v = u := by
        cases v
        cases u
        simp_all
      rw [hv, ih us p (fun x hx => h1 x (List.mem_cons_of_mem v hx))
        (fun x hx => h2 x (List.mem_cons_of_mem u hx)) htail]

/-! ### Concrete inputs used to exercise the model -/

/-- The witness of the repository's integration test: proposal 0, three
votes (yes, no, yes) from three voters. -/
def w0 : VoteWitness :=
  ⟨0, [⟨0, 1, true⟩, ⟨0, 2, false⟩, ⟨0, 3, true⟩]⟩

/-- A yes-vote and a no-vote for proposal 1. -/
def vA : Vote := ⟨1, 17, true⟩

/-- A no-vote used together with `vA`. -/
def vB : Vote := ⟨1, 33, false⟩

/-- Two-vote list for proposal 1. -/
def lAB : List Vote := [vA, vB]

/-- The same two votes in the opposite order. -/
def lBA : List Vote := [vB, vA]

/-- A list with a duplicated vote, for the reordering counterexample. -/
def cexList : List Vote := [vA, vA, vB]

/-- A witness whose voter 9 appears twice. -/
def wDup : VoteWitness := ⟨2, [⟨2, 9, true⟩, ⟨2, 9, false⟩]⟩

/-- A consistent one-vote witness for proposal 7. -/
def wEq : VoteWitness := ⟨7, [⟨7, 3, true⟩]⟩

/-- A witness with one vote whose proposal id disagrees with the witness. -/
def wMis : VoteWitness := ⟨0, [⟨1, 5, true⟩]⟩

/-! ### The claims -/

/-- C1: for every witness that tallies successfully (all votes pass the
consistency check and no count overflows), the output's commitments
digest equals the left fold, over the votes in witness order, of
`digest = Hash(Encode(digest, commitment))` starting from the chain root
`Hash(Encode(proposal_id))`, with
`commitment = Hash(Encode(voter, choice, proposal_id))`. -/
theorem tally_digest_is_spec_chain {H : HashF} {w : VoteWitness} {out : VotePublicOutput}
    (h : tallyVotes H w = .ok out) :
    out.commitmentsDigest =
      w.votes.foldl
        (fun digest v =>
          H (abiEncodePair digest (H (abiEncodeVoteTuple v.voter v.choice v.proposalId))))
        (H (abiEncodeUint256 w.proposalId)) := by
  rw [(tallyVotes_ok h).2.2.2.1]
  rfl

set_option maxRecDepth 1000000 in
/-- Witness for C1 at the integration test's vote list. -/
theorem tally_digest_is_spec_chain_witness :
    tallyVotes modelHash w0 = .ok (tallyOutputD modelHash w0) ∧
    (tallyOutputD modelHash w0).commitmentsDigest =
      w0.votes.foldl
        (fun digest v =>
          modelHash (abiEncodePair digest
            (modelHash (abiEncodeVoteTuple v.voter v.choice v.proposalId))))
        (modelHash (abiEncodeUint256 w0.proposalId)) :=
  have h : tallyVotes modelHash w0 = .ok (tallyOutputD modelHash w0) := by decide
  ⟨h, tally_digest_is_spec_chain h⟩

/-- C2: count conservation — every successful tally satisfies
`output.yes + output.no = number of votes in the witness`. -/
theorem tally_count_conservation {H : HashF} {w : VoteWitness} {out : VotePublicOutput}
    (h : tallyVotes H w = .ok out) :
    out.yes + out.no = w.votes.length := by
  obtain ⟨-, hy, hn, -, -, -, -⟩ := tallyVotes_ok h
  rw [hy, hn, countP_choice_add_countP_not]

set_option maxRecDepth 1000000 in
/-- Witness for C2 at the integration test's vote list. -/
theorem tally_count_conservation_witness :
    tallyVotes modelHash w0 = .ok (tallyOutputD modelHash w0) ∧
    (tallyOutputD modelHash w0).yes + (tallyOutputD modelHash w0).no = w0.votes.length :=
  have h : tallyVotes modelHash w0 = .ok (tallyOutputD modelHash w0) := by decide
  ⟨h, tally_count_conservation h⟩

/-- C3: proposal-mismatch rejection — a witness containing a vote whose
proposal id differs from the declared one always fails; no public output
is produced. -/
theorem tally_proposal_mismatch_rejected {H : HashF} {w : VoteWitness}
    (hmis : ∃ v ∈ w.votes, v.proposalId ≠ w.proposalId) :
    ∃ e, tallyVotes H w = .error e := by
  cases hres : tallyVotes H w with
  | error e => exact ⟨e, rfl⟩
  | ok out =>
    obtain ⟨v, hv, hne⟩ := hmis
    exact absurd ((tallyVotes_ok hres).2.2.2.2.1 v hv) hne

/-- Witness for C3 at a one-vote witness with a mismatching proposal id. -/
theorem tally_proposal_mismatch_rejected_witness :
    (∃ v ∈ wMis.votes, v.proposalId ≠ wMis.proposalId) ∧
    ∃ e, tallyVotes modelHash wMis = .error e :=
  have h : ∃ v ∈ wMis.votes, v.proposalId ≠ wMis.proposalId := by decide
  ⟨h, tally_proposal_mismatch_rejected h⟩

/-- C4: count overflow policy — a witness whose yes or no tally would not
fit into the output's `uint32` makes the engine fail instead of silently
wrapping. -/
theorem tally_count_overflow_fails {H : HashF} {w : VoteWitness}
    (hov : 2 ^ 32 ≤ w.votes.countP (fun v => v.choice) ∨
      2 ^ 32 ≤ w.votes.countP (fun v => !v.choice)) :
    ∃ e, tallyVotes H w = .error e := by
  cases hres : tallyVotes H w with
  | error e => exact ⟨e, rfl⟩
  | ok out =>
    obtain ⟨-, hy, hn, -, -, hby, hbn⟩ := tallyVotes_ok hres
    rcases hov with hov | hov
    · omega
    · omega

/-- A witness with `2 ^ 32` yes-votes, overflowing the `uint32` count. -/
def wOv : VoteWitness := ⟨0, List.replicate (2 ^ 32) ⟨0, 4, true⟩⟩

/-- Witness for C4 at a witness with `2 ^ 32` yes-votes. -/
theorem tally_count_overflow_fails_witness :
    2 ^ 32 ≤ wOv.votes.countP (fun v => v.choice) ∧
    ∃ e, tallyVotes modelHash wOv = .error e :=
  have h : 2 ^ 32 ≤ wOv.votes.countP (fun v => v.choice) := by
    show 2 ^ 32 ≤ (List.replicate (2 ^ 32) (⟨0, 4, true⟩ : Vote)).countP (fun v => v.choice)
    rw [List.countP_replicate]
    simp
  ⟨h, tally_count_overflow_fails (Or.inl h)⟩

/-- C5: empty-list base case — with no votes the tally emits zero counts
and the unfolded chain root `Hash(Encode(proposal_id))`, in particular for
proposal id 5. -/
theorem tally_empty_votes_base_case (H : HashF) :
    tallyVotes H ⟨5, []⟩ = .ok ⟨5, H (abiEncodeUint256 5), 0, 0⟩ ∧
    ∀ p : Nat, tallyVotes H ⟨p, []⟩ = .ok ⟨p, H (abiEncodeUint256 p), 0, 0⟩ :=
  ⟨rfl, fun _ => rfl⟩

/-- C6: determinism — the big-step execution relation of the tally relates
a witness to at most one result, so two runs on the same witness produce
identical public outputs. -/
theorem tally_exec_deterministic {H : HashF} {w : VoteWitness}
    {r1 r2 : Except GuestError VotePublicOutput}
    (h1 : TallyExec H w r1) (h2 : TallyExec H w r2) : r1 = r2 := by
  cases h1 with
  | ok y1 n1 d1 hl1 =>
    cases h2 with
    | ok y2 n2 d2 hl2 =>
      have hdet := LoopExec_det hl1 hl2
      simp only [Except.ok.injEq, Prod.mk.injEq] at hdet
      obtain ⟨hy, hn, hd⟩ := hdet
      rw [hy, hn, hd]
    | err e2 hl2 =>
      have hdet := LoopExec_det hl1 hl2
      simp at hdet
  | err e1 hl1 =>
    cases h2 with
    | ok y2 n2 d2 hl2 =>
      have hdet := LoopExec_det hl1 hl2
      simp at hdet
    | err e2 hl2 =>
      have hdet := LoopExec_det hl1 hl2
      simp only [Except.error.injEq] at hdet
      rw [hdet]

set_option maxRecDepth 1000000 in
/-- Witness for C6: two executions on the test witness agree. -/
theorem tally_exec_deterministic_witness :
    tallyVotes modelHash w0 = .ok (tallyOutputD modelHash w0) :=
  have h1 : TallyExec modelHash w0 (tallyVotes modelHash w0) := TallyExec_run modelHash w0
  have heq : (.ok (tallyOutputD modelHash w0) : Except GuestError VotePublicOutput) =
      tallyVotes modelHash w0 := by decide
  have h2 : TallyExec modelHash w0 (.ok (tallyOutputD modelHash w0)) := by
    rw [heq]
    exact TallyExec_run modelHash w0
  tally_exec_deterministic h1 h2

/-- C7: atomicity of failure — whenever the guest run fails (decode error,
proposal mismatch, or count overflow), the journal is empty: no
`VotePublicOutput` bytes were committed. -/
theorem guest_failure_commits_nothing {H : HashF} {inp : Option VoteWitness} {e : GuestError}
    (h : (guestRun H inp).1 = .error e) : (guestRun H inp).2 = [] := by
  cases inp with
  | none => rfl
  | some w =>
    simp only [guestRun] at h ⊢
    cases hres : tallyVotes H w with
    | error e2 => rfl
    | ok out =>
      rw [hres] at h
      simp at h

/-- Witness for C7 at a run whose input fails to decode. -/
theorem guest_failure_commits_nothing_witness :
    (guestRun modelHash none).1 = .error .inputDecode ∧
    (guestRun modelHash none).2 = [] :=
  have h : (guestRun modelHash none).1 = .error .inputDecode := rfl
  ⟨h, guest_failure_commits_nothing h⟩

/-- C8 (amended): for a witness with two votes of different choices,
reordering the votes into a different vote sequence changes the
commitments digest — provided the hash is collision-free on the byte
strings the two chains feed it, the spec's collision-resistance
assumption — while the yes and no counts of the public output never
change under any reordering. -/
theorem tally_order_sensitivity_amended {H : HashF} {p : Nat} {l1 l2 : List Vote}
    (hperm : l1.Perm l2) (hne : l1 ≠ l2)
    (_hdiff : ∃ v ∈ l1, ∃ u ∈ l1, v.choice ≠ u.choice)
    (hcf : CollFreeOn H (chainInputs H p l1 ++ chainInputs H p l2))
    (hrange : RangeOn H (chainInputs H p l1 ++ chainInputs H p l2))
    (hwf1 : VotesWF l1) (hwf2 : VotesWF l2) :
    specChainDigest H p l1 ≠ specChainDigest H p l2 ∧
    (tallyVotes H ⟨p, l1⟩).toOption.map VotePublicOutput.yes =
      (tallyVotes H ⟨p, l2⟩).toOption.map VotePublicOutput.yes ∧
    (tallyVotes H ⟨p, l1⟩).toOption.map VotePublicOutput.no =
      (tallyVotes H ⟨p, l2⟩).toOption.map VotePublicOutput.no := by
  obtain ⟨hyes, hno⟩ := @tallyVotes_perm_counts H p l1 l2 hperm
  exact ⟨fun heq => hne (specChainDigest_inj H p l1 l2 hcf hrange hwf1 hwf2 heq), hyes, hno⟩

set_option maxRecDepth 1000000 in
/-- Witness for the amended C8 at two opposite-choice votes swapped. -/
theorem tally_order_sensitivity_amended_witness :
    List.Perm lAB lBA ∧ lAB ≠ lBA ∧
    (∃ v ∈ lAB, ∃ u ∈ lAB, v.choice ≠ u.choice) ∧
    specChainDigest modelHash 1 lAB ≠ specChainDigest modelHash 1 lBA ∧
    (tallyVotes modelHash ⟨1, lAB⟩).toOption.map VotePublicOutput.yes =
      (tallyVotes modelHash ⟨1, lBA⟩).toOption.map VotePublicOutput.yes :=
  have hperm : List.Perm lAB lBA := by decide
  have hne : lAB ≠ lBA := by decide
  have hdiff : ∃ v ∈ lAB, ∃ u ∈ lAB, v.choice ≠ u.choice := by decide
  have h := @tally_order_sensitivity_amended modelHash 1 lAB lBA hperm hne hdiff
    (by decide) (by decide) (by decide) (by decide)
  ⟨hperm, hne, hdiff, h.1, h.2.1⟩

set_option maxRecDepth 1000000 in
/-- C8 counterexample: swapping the first two (equal) votes of a witness
whose votes do not all share one choice is a non-identity reordering of
the vote order, yet it leaves the vote sequence — and hence the tally
output and its commitments digest — unchanged. -/
theorem tally_order_sensitivity_counterexample :
    ([1, 0, 2] : List Nat) ≠ [0, 1, 2] ∧
    permuteVotes [1, 0, 2] cexList = cexList ∧
    (∃ v ∈ cexList, ∃ u ∈ cexList, v.choice ≠ u.choice) ∧
    tallyVotes modelHash ⟨1, permuteVotes [1, 0, 2] cexList⟩ =
      tallyVotes modelHash ⟨1, cexList⟩ ∧
    specChainDigest modelHash 1 (permuteVotes [1, 0, 2] cexList) =
      specChainDigest modelHash 1 cexList := by
  decide

/-- C9: no double-vote prevention — a consistent witness in which one
voter appears in several votes still tallies successfully, counting every
occurrence and folding every occurrence's commitment into the digest. -/
theorem tally_counts_duplicate_voters {H : HashF} {w : VoteWitness}
    (hcons : ∀ v ∈ w.votes, v.proposalId = w.proposalId)
    (hlen : w.votes.length < 2 ^ 32)
    (hdup : ∃ i j : Fin w.votes.length, i ≠ j ∧
      (w.votes.get i).voter = (w.votes.get j).voter) :
    tallyVotes H w = .ok ⟨w.proposalId, specChainDigest H w.proposalId w.votes,
      w.votes.countP (fun v => v.choice), w.votes.countP (fun v => !v.choice)⟩ := by
  have h1 := @List.countP_le_length Vote (fun v => v.choice) w.votes
  have h2 := @List.countP_le_length Vote (fun v => !v.choice) w.votes
  exact tallyVotes_complete H w.proposalId w.votes hcons (by omega) (by omega)

set_option maxRecDepth 1000000 in
/-- Witness for C9 at a witness whose voter 9 votes twice. -/
theorem tally_counts_duplicate_voters_witness :
    (∀ v ∈ wDup.votes, v.proposalId = wDup.proposalId) ∧
    wDup.votes.length < 2 ^ 32 ∧
    (∃ i j : Fin wDup.votes.length, i ≠ j ∧
      (wDup.votes.get i).voter = (wDup.votes.get j).voter) ∧
    tallyVotes modelHash wDup = .ok ⟨2, specChainDigest modelHash 2 wDup.votes, 1, 1⟩ :=
  have hcons : ∀ v ∈ wDup.votes, v.proposalId = wDup.proposalId := by decide
  have hlen : wDup.votes.length < 2 ^ 32 := by decide
  have hdup : ∃ i j : Fin wDup.votes.length, i ≠ j ∧
      (wDup.votes.get i).voter = (wDup.votes.get j).voter := by decide
  have h := @tally_counts_duplicate_voters modelHash wDup hcons hlen hdup
  ⟨hcons, hlen, hdup, h.trans (by decide)⟩

/-- C10: the public output is determined by the witness's proposal id and
the ordered `(voter, choice)` sequence alone — two consistent witnesses
agreeing on those are tallied to identical outputs with byte-identical
journals; the per-vote proposal-id fields add nothing beyond passing the
consistency check. -/
theorem tally_output_determined_by_pid_and_choices {H : HashF} {w1 w2 : VoteWitness}
    (hpid : w1.proposalId = w2.proposalId)
    (hpw : w1.votes.map (fun v => (v.voter, v.choice)) =
      w2.votes.map (fun v => (v.voter, v.choice)))
    (hc1 : ∀ v ∈ w1.votes, v.proposalId = w1.proposalId)
    (hc2 : ∀ v ∈ w2.votes, v.proposalId = w2.proposalId) :
    tallyVotes H w1 = tallyVotes H w2 ∧
    (guestRun H (some w1)).2 = (guestRun H (some w2)).2 := by
  have hv : w1.votes = w2.votes :=
    votes_eq_of_pointwise w1.votes w2.votes w1.proposalId hc1
      (fun v hv => (hc2 v hv).trans hpid.symm) hpw
  have hw : w1 = w2 := by
    cases w1
    cases w2
    simp_all
  rw [hw]
  exact ⟨rfl, rfl⟩

/-- Witness for C10 at a consistent one-vote witness. -/
theorem tally_output_determined_by_pid_and_choices_witness :
    (∀ v ∈ wEq.votes, v.proposalId = wEq.proposalId) ∧
    tallyVotes modelHash wEq = tallyVotes modelHash wEq ∧
    (guestRun modelHash (some wEq)).2 = (guestRun modelHash (some wEq)).2 :=
  have hc : ∀ v ∈ wEq.votes, v.proposalId = wEq.proposalId := by decide
  have h := @tally_output_determined_by_pid_and_choices modelHash wEq wEq rfl rfl hc hc
  ⟨hc, h.1, h.2⟩

end PermissionlessVoting
